import Mathlib

/-!
Verification of the two-sum program in `src/workspace/manual-test/main.cpp`.

The program consists of a single function `twoSum` (a left-to-right scan over
a `vector<int>` using an `unordered_map<int,int>` called `seen`) and a `main`
that reads `n`, then `n` integers, then a target from standard input, calls
`twoSum`, and prints `"[" << result[0] << "," << result[1] << "]"`.

The embedding below models:
  * machine `int` values as `Int` (the spec treats values mathematically and
    none of the claims concern 32-bit overflow);
  * the `unordered_map<int,int>` as an association list with C++
    `operator[]`-assignment semantics (`mapInsert` overwrites an existing key);
  * the `for` loop of `twoSum` as structural recursion over the remaining
    suffix of the vector, carrying the current index `i` (`twoSumAux`), and
    also, separately, as index-based recursion that threads the by-reference
    vector through every step (`twoSumRefGo`), with a proved equivalence;
  * `main`'s input as a stream of already-tokenised integers and its output
    as an `Option String` (`none` models the undefined behaviour of indexing
    an absent result, and of a failed read / negative vector size).
-/

namespace TwoSumProg

/-- `nums[i]` for an in-bounds index, total with default `0` out of bounds
(the C++ access `nums[i]` is only ever performed in bounds). -/
def nth : List Int → Nat → Int
  | [], _ => 0
  | x :: _, 0 => x
  | _ :: t, n + 1 => nth t n

/-- `seen.count k != 0` / `seen[k]` read: lookup in the association list
modelling `unordered_map<int,int> seen`. -/
def mapLookup : List (Int × Nat) → Int → Option Nat
  | [], _ => none
  | (a, v) :: t, k => if a = k then some v else mapLookup t k

/-- `seen[k] = v`: C++ `operator[]` assignment — overwrites the value if the
key is present, appends the entry otherwise. -/
def mapInsert : List (Int × Nat) → Int → Nat → List (Int × Nat)
  | [], k, v => [(k, v)]
  | (a, w) :: t, k, v => if a = k then (k, v) :: t else (a, w) :: mapInsert t k v

/-- The loop body of `twoSum` (main.cpp lines 9–17): at index `i` with map
`seen`, compute `complement = target - nums[i]`; if `seen` contains it,
return `{seen[complement], i}`; otherwise set `seen[nums[i]] = i` and
continue. The remaining suffix of the vector is the recursion argument. -/
def twoSumAux (target : Int) : List Int → Nat → List (Int × Nat) → List Nat
  | [], _, _ => []
  | x :: rest, i, seen =>
    match mapLookup seen (target - x) with
    | some k => [k, i]
    | none => twoSumAux target rest (i + 1) (mapInsert seen x i)

/-- `twoSum` (main.cpp lines 6–19): scan from index 0 with an empty map;
returns `{seen[complement], i}` on a hit and `{}` if the loop completes. -/
def twoSum (nums : List Int) (target : Int) : List Nat :=
  twoSumAux target nums 0 []

/-- Index of the last occurrence of `c` in the list (`none` if absent).
This is what the `seen` map actually stores for each key, because
`seen[nums[i]] = i` overwrites earlier entries. -/
def lastIdx : List Int → Int → Option Nat
  | [], _ => none
  | x :: t, c =>
    match lastIdx t c with
    | some v => some (v + 1)
    | none => if x = c then some 0 else none

/-- A valid pair for `(nums, target)`: two distinct in-bounds positions
`a < b` whose values sum to the target. -/
def ValidPair (nums : List Int) (target : Int) (a b : Nat) : Prop :=
  a < b ∧ b < nums.length ∧ nth nums a + nth nums b = target

instance (nums : List Int) (target : Int) (a b : Nat) :
    Decidable (ValidPair nums target a b) := by
  unfold ValidPair; infer_instance

/-- Executable check for the existence of a valid pair. -/
def existsPairB (nums : List Int) (target : Int) : Bool :=
  (List.range nums.length).any fun b =>
    (List.range b).any fun a => nth nums a + nth nums b == target

/-! ### Helper lemmas about `nth`, the association-list map, and `lastIdx` -/

theorem nth_append_left (pre l : List Int) (a : Nat) (h : a < pre.length) :
    nth (pre ++ l) a = nth pre a := by
  induction pre generalizing a with
  | nil => exact absurd h (Nat.not_lt_zero a)
  | cons y t ih =>
    cases a with
    | zero => rfl
    | succ n => exact ih n (Nat.lt_of_succ_lt_succ h)

theorem nth_append_cons (pre : List Int) (x : Int) (l : List Int) :
    nth (pre ++ x :: l) pre.length = x := by
  induction pre with
  | nil => rfl
  | cons y t ih => exact ih

theorem mapLookup_mapInsert (m : List (Int × Nat)) (k : Int) (v : Nat) (c : Int) :
    mapLookup (mapInsert m k v) c = if c = k then some v else mapLookup m c := by
  induction m with
  | nil =>
    by_cases h : c = k
    · simp [mapInsert, mapLookup, h]
    · simp [mapInsert, mapLookup, h, Ne.symm h]
  | cons p t ih =>
    obtain ⟨a, w⟩ := p
    by_cases hak : a = k
    · subst hak
      by_cases hca : c = a
      · subst hca
        simp [mapInsert, mapLookup]
      · simp [mapInsert, mapLookup, hca, Ne.symm hca]
    · by_cases hac : a = c
      · subst hac
        have hck : ¬ a = k := hak
        simp [mapInsert, mapLookup, hak, hck]
      · simp [mapInsert, mapLookup, hak, hac, ih]

theorem mapInsert_length_le (m : List (Int × Nat)) (k : Int) (v : Nat) :
    (mapInsert m k v).length ≤ m.length + 1 := by
  induction m with
  | nil => simp [mapInsert]
  | cons p t ih =>
    obtain ⟨a, w⟩ := p
    by_cases hak : a = k
    · simp [mapInsert, hak]
    · simp only [mapInsert, hak, if_false, List.length_cons]
      omega

theorem lastIdx_lt (l : List Int) (c : Int) (v : Nat) (h : lastIdx l c = some v) :
    v < l.length := by
  induction l generalizing v with
  | nil => simp [lastIdx] at h
  | cons x t ih =>
    simp only [lastIdx] at h
    cases ht : lastIdx t c with
    | some w =>
      rw [ht] at h
      simp only [Option.some.injEq] at h
      subst h
      exact Nat.succ_lt_succ (ih w ht)
    | none =>
      rw [ht] at h
      by_cases hx : x = c
      · rw [if_pos hx] at h
        injection h with h2
        subst h2
        exact Nat.succ_pos t.length
      · simp [hx] at h

theorem lastIdx_nth (l : List Int) (c : Int) (v : Nat) (h : lastIdx l c = some v) :
    nth l v = c := by
  induction l generalizing v with
  | nil => simp [lastIdx] at h
  | cons x t ih =>
    simp only [lastIdx] at h
    cases ht : lastIdx t c with
    | some w =>
      rw [ht] at h
      simp only [Option.some.injEq] at h
      subst h
      exact ih w ht
    | none =>
      rw [ht] at h
      by_cases hx : x = c
      · rw [if_pos hx] at h
        injection h with h2
        subst h2
        exact hx
      · simp [hx] at h

theorem lastIdx_none_nth (l : List Int) (c : Int) (h : lastIdx l c = none) :
    ∀ w, w < l.length → nth l w ≠ c := by
  induction l with
  | nil => intro w hw; exact absurd hw (Nat.not_lt_zero w)
  | cons x t ih =>
    intro w hw
    simp only [lastIdx] at h
    cases ht : lastIdx t c with
    | some v => rw [ht] at h; simp at h
    | none =>
      rw [ht] at h
      by_cases hx : x = c
      · simp [hx] at h
      · cases w with
        | zero => exact hx
        | succ n => exact ih ht n (Nat.lt_of_succ_lt_succ hw)

theorem lastIdx_latest (l : List Int) (c : Int) (v : Nat) (h : lastIdx l c = some v) :
    ∀ w, v < w → w < l.length → nth l w ≠ c := by
  induction l generalizing v with
  | nil => simp [lastIdx] at h
  | cons x t ih =>
    intro w hvw hw
    simp only [lastIdx] at h
    cases ht : lastIdx t c with
    | some u =>
      rw [ht] at h
      simp only [Option.some.injEq] at h
      subst h
      cases w with
      | zero => exact absurd hvw (Nat.not_lt_zero _)
      | succ n => exact ih u ht n (Nat.lt_of_succ_lt_succ hvw) (Nat.lt_of_succ_lt_succ hw)
    | none =>
      rw [ht] at h
      by_cases hx : x = c
      · rw [if_pos hx] at h
        injection h with h2
        subst h2
        cases w with
        | zero => exact absurd hvw (Nat.not_lt_zero _)
        | succ n => exact lastIdx_none_nth t c ht n (Nat.lt_of_succ_lt_succ hw)
      · simp [hx] at h

theorem lastIdx_append_single (pre : List Int) (x : Int) (c : Int) :
    lastIdx (pre ++ [x]) c = if c = x then some pre.length else lastIdx pre c := by
  induction pre with
  | nil =>
    by_cases h : c = x
    · simp only [List.nil_append, lastIdx, if_pos (Eq.symm h), if_pos h, List.length_nil]
    · simp only [List.nil_append, lastIdx, if_neg (Ne.symm h), if_neg h]
  | cons y t ih =>
    have hstep : lastIdx ((y :: t) ++ [x]) c
        = match lastIdx (t ++ [x]) c with
          | some v => some (v + 1)
          | none => if y = c then some 0 else none := rfl
    rw [hstep, ih]
    by_cases h : c = x
    · simp only [if_pos h, List.length_cons]
    · simp only [if_neg h]
      rfl

/-! ### Master lemma for the scan loop -/

/-- Invariant characterisation of the loop in `twoSum`: suppose the map
`seen` sends every value to the index of its last occurrence in the scanned
prefix `pre` (and to `none` if it does not occur), and `pre` contains no
valid pair. Then scanning the remaining suffix either returns `[]` with no
valid pair existing in the whole vector, or returns a valid pair `[i, j]`
such that `i` is the last position before `j` holding the complement of
`nums[j]` and `j` is the least second index of any valid pair. -/
theorem twoSumAux_master (target : Int) :
    ∀ (l pre : List Int) (seen : List (Int × Nat)),
    (∀ c, mapLookup seen c = lastIdx pre c) →
    (∀ a b, ¬ ValidPair pre target a b) →
    (twoSumAux target l pre.length seen = [] ∧ ∀ a b, ¬ ValidPair (pre ++ l) target a b)
    ∨ (∃ i j, twoSumAux target l pre.length seen = [i, j]
        ∧ ValidPair (pre ++ l) target i j
        ∧ (∀ w, i < w → w < j → nth (pre ++ l) w ≠ target - nth (pre ++ l) j)
        ∧ (∀ b2 a2, ValidPair (pre ++ l) target a2 b2 → j ≤ b2)) := by
  intro l
  induction l with
  | nil =>
    intro pre seen hinv hpre
    left
    refine ⟨rfl, ?_⟩
    intro a b
    rw [List.append_nil]
    exact hpre a b
  | cons x rest ih =>
    intro pre seen hinv hpre
    cases hlk : mapLookup seen (target - x) with
    | some k =>
      right
      have hlast : lastIdx pre (target - x) = some k := by rw [← hinv]; exact hlk
      have hklt : k < pre.length := lastIdx_lt pre _ k hlast
      have hknth : nth pre k = target - x := lastIdx_nth pre _ k hlast
      have hjlen : pre.length < (pre ++ x :: rest).length := by
        rw [List.length_append, List.length_cons]
        omega
      have hnthj : nth (pre ++ x :: rest) pre.length = x := nth_append_cons pre x rest
      have hnthk : nth (pre ++ x :: rest) k = target - x := by
        rw [nth_append_left pre (x :: rest) k hklt]
        exact hknth
      refine ⟨k, pre.length, ?_, ?_, ?_, ?_⟩
      · simp [twoSumAux, hlk]
      · exact ⟨hklt, hjlen, by rw [hnthk, hnthj]; omega⟩
      · intro w hkw hwpre
        rw [hnthj, nth_append_left pre (x :: rest) w hwpre]
        exact lastIdx_latest pre (target - x) k hlast w hkw hwpre
      · intro b2 a2 hv
        by_contra hnot
        have hb2 : b2 < pre.length := by omega
        obtain ⟨hab, hblen, hsum⟩ := hv
        have ha2 : a2 < pre.length := Nat.lt_trans hab hb2
        apply hpre a2 b2
        refine ⟨hab, hb2, ?_⟩
        rw [← nth_append_left pre (x :: rest) a2 ha2,
          ← nth_append_left pre (x :: rest) b2 hb2]
        exact hsum
    | none =>
      have hres : twoSumAux target (x :: rest) pre.length seen
          = twoSumAux target rest (pre.length + 1) (mapInsert seen x pre.length) := by
        simp [twoSumAux, hlk]
      have hlen : (pre ++ [x]).length = pre.length + 1 := by simp
      have hinv2 : ∀ c, mapLookup (mapInsert seen x pre.length) c = lastIdx (pre ++ [x]) c := by
        intro c
        rw [mapLookup_mapInsert, lastIdx_append_single, hinv c]
      have hpre2 : ∀ a b, ¬ ValidPair (pre ++ [x]) target a b := by
        intro a b hv
        obtain ⟨hab, hblen, hsum⟩ := hv
        rw [hlen] at hblen
        by_cases hb : b < pre.length
        · apply hpre a b
          have ha : a < pre.length := Nat.lt_trans hab hb
          refine ⟨hab, hb, ?_⟩
          rw [← nth_append_left pre [x] a ha, ← nth_append_left pre [x] b hb]
          exact hsum
        · have hbeq : b = pre.length := by omega
          subst hbeq
          have ha : a < pre.length := hab
          have hxnth : nth (pre ++ [x]) pre.length = x := nth_append_cons pre x []
          rw [hxnth, nth_append_left pre [x] a ha] at hsum
          have hcomp : nth pre a = target - x := by omega
          have hnone : lastIdx pre (target - x) = none := by rw [← hinv]; exact hlk
          exact lastIdx_none_nth pre (target - x) hnone a ha hcomp
      have hmain := ih (pre ++ [x]) (mapInsert seen x pre.length) hinv2 hpre2
      have happ : (pre ++ [x]) ++ rest = pre ++ x :: rest := by simp
      rw [hlen, happ] at hmain
      rw [hres]
      exact hmain

/-- Top-level characterisation of `twoSum`, obtained from the master lemma
with the empty prefix and the empty map. -/
theorem twoSum_spec (nums : List Int) (target : Int) :
    (twoSum nums target = [] ∧ ∀ a b, ¬ ValidPair nums target a b)
    ∨ (∃ i j, twoSum nums target = [i, j]
        ∧ ValidPair nums target i j
        ∧ (∀ w, i < w → w < j → nth nums w ≠ target - nth nums j)
        ∧ (∀ b2 a2, ValidPair nums target a2 b2 → j ≤ b2)) := by
  have h := twoSumAux_master target nums [] []
    (fun c => rfl)
    (fun a b hv => absurd hv.2.1 (Nat.not_lt_zero b))
  simpa [twoSum] using h

theorem no_pair_of_existsPairB_false (nums : List Int) (target : Int)
    (h : existsPairB nums target = false) :
    ∀ a b, ¬ ValidPair nums target a b := by
  intro a b hv
  obtain ⟨hab, hb, hsum⟩ := hv
  have htrue : existsPairB nums target = true := by
    unfold existsPairB
    rw [List.any_eq_true]
    refine ⟨b, List.mem_range.mpr hb, ?_⟩
    rw [List.any_eq_true]
    refine ⟨a, List.mem_range.mpr hab, ?_⟩
    simpa using hsum
  rw [h] at htrue
  exact Bool.false_ne_true htrue

/-! ### The index-based loop, threading the by-reference vector -/

/-- Index-based rendering of the same `for` loop, mirroring
`for (int i = 0; i < nums.size(); i++)` and threading the by-reference
vector `nums` through every step: the second component of the value is the
contents of the vector when the call returns. The body contains no write to
`nums`, so the vector is passed unchanged into each step. -/
def twoSumRefGo (target : Int) (nums : List Int) (i : Nat) (seen : List (Int × Nat)) :
    List Nat × List Int :=
  if _h : i < nums.length then
    match mapLookup seen (target - nth nums i) with
    | some k => ([k, i], nums)
    | none => twoSumRefGo target nums (i + 1) (mapInsert seen (nth nums i) i)
  else ([], nums)
termination_by nums.length - i
decreasing_by simp_wf; omega

/-- The call `twoSum(nums, target)` viewed as result plus final vector. -/
def twoSumRef (nums : List Int) (target : Int) : List Nat × List Int :=
  twoSumRefGo target nums 0 []

theorem drop_eq_nth_cons (l : List Int) (i : Nat) (h : i < l.length) :
    l.drop i = nth l i :: l.drop (i + 1) := by
  induction l generalizing i with
  | nil => exact absurd h (Nat.not_lt_zero i)
  | cons x t ih =>
    cases i with
    | zero => rfl
    | succ n =>
      rw [List.drop_succ_cons, List.drop_succ_cons]
      exact ih n (Nat.lt_of_succ_lt_succ h)

theorem twoSumRefGo_eq (target : Int) (nums : List Int) :
    ∀ fuel i seen, nums.length - i ≤ fuel →
    twoSumRefGo target nums i seen = (twoSumAux target (nums.drop i) i seen, nums) := by
  intro fuel
  induction fuel with
  | zero =>
    intro i seen hf
    have hle : nums.length ≤ i := by omega
    rw [twoSumRefGo, dif_neg (by omega : ¬ i < nums.length)]
    rw [List.drop_eq_nil_of_le hle]
    rfl
  | succ f ih =>
    intro i seen hf
    by_cases h : i < nums.length
    · rw [twoSumRefGo, dif_pos h, drop_eq_nth_cons nums i h]
      cases hlk : mapLookup seen (target - nth nums i) with
      | some k => simp [twoSumAux, hlk]
      | none =>
        simp only [twoSumAux, hlk]
        exact ih (i + 1) (mapInsert seen (nth nums i) i) (by omega)
    · rw [twoSumRefGo, dif_neg h, List.drop_eq_nil_of_le (by omega)]
      rfl

/-! ### The instrumented loop, counting iterations and map size -/

/-- The loop instrumented with its resource usage: alongside the result it
returns the number of loop iterations executed and the number of entries in
the map when the loop stops. -/
def twoSumInstr (target : Int) : List Int → Nat → List (Int × Nat) → List Nat × Nat × Nat
  | [], _, seen => ([], 0, seen.length)
  | x :: rest, i, seen =>
    match mapLookup seen (target - x) with
    | some k => ([k, i], 1, seen.length)
    | none =>
      let r := twoSumInstr target rest (i + 1) (mapInsert seen x i)
      (r.1, r.2.1 + 1, r.2.2)

theorem twoSumInstr_fst (target : Int) :
    ∀ l i seen, (twoSumInstr target l i seen).1 = twoSumAux target l i seen := by
  intro l
  induction l with
  | nil => intro i seen; rfl
  | cons x rest ih =>
    intro i seen
    cases hlk : mapLookup seen (target - x) with
    | some k => simp [twoSumInstr, twoSumAux, hlk]
    | none => simp [twoSumInstr, twoSumAux, hlk, ih]

theorem twoSumInstr_iters_le (target : Int) :
    ∀ l i seen, (twoSumInstr target l i seen).2.1 ≤ l.length := by
  intro l
  induction l with
  | nil => intro i seen; exact Nat.le_refl 0
  | cons x rest ih =>
    intro i seen
    cases hlk : mapLookup seen (target - x) with
    | some k =>
      simp only [twoSumInstr, hlk, List.length_cons]
      omega
    | none =>
      simp only [twoSumInstr, hlk, List.length_cons]
      have := ih (i + 1) (mapInsert seen x i)
      omega

theorem twoSumInstr_space_le (target : Int) :
    ∀ l i seen,
    (twoSumInstr target l i seen).2.2 ≤ seen.length + (twoSumInstr target l i seen).2.1 := by
  intro l
  induction l with
  | nil => intro i seen; simp [twoSumInstr]
  | cons x rest ih =>
    intro i seen
    cases hlk : mapLookup seen (target - x) with
    | some k =>
      simp only [twoSumInstr, hlk]
      omega
    | none =>
      simp only [twoSumInstr, hlk]
      have h1 := ih (i + 1) (mapInsert seen x i)
      have h2 := mapInsert_length_le seen x i
      omega

/-! ### The `main` wrapper: parsing and printing -/

/-- The input to `main` as a stream of already-tokenised integers (each
`cin >> x` consumes the next token). Reading with no token left fails, and
a negative `n` makes `vector<int> nums(n)` throw; both are modelled as
`none`. On success the parse yields the `n` sequence values, in order, and
the target read after them. Tokens past the target are ignored, as in the
program. -/
def parseInput (tokens : List Int) : Option (List Int × Int) :=
  match tokens with
  | [] => none
  | n :: rest =>
    if n < 0 then none
    else
      match rest.drop n.toNat with
      | [] => none
      | t :: _ => some (rest.take n.toNat, t)

/-- `cout << "[" << result[0] << "," << result[1] << "]"`: defined exactly
when both accesses are in bounds; indexing an absent result is undefined
behaviour, modelled as `none`. -/
def formatResult (r : List Nat) : Option String :=
  match r with
  | [i, j] => some ("[" ++ toString i ++ "," ++ toString j ++ "]")
  | _ => none

/-- `main` (main.cpp lines 21–38): parse the input stream, run `twoSum` on
the parsed sequence and target, and print the two indices. -/
def runMain (tokens : List Int) : Option String :=
  match parseInput tokens with
  | none => none
  | some (nums, target) => formatResult (twoSum nums target)

example : twoSum [2, 7, 11, 15] 9 = [0, 1] := by decide
example : twoSum [3, 2, 4] 6 = [1, 2] := by decide
example : twoSum [3, 3] 6 = [0, 1] := by decide
example : twoSum [1, 2, 3] 100 = [] := by decide
example : twoSum [3, 3, 6] 9 = [1, 2] := by decide
example : existsPairB [1, 2, 3] 100 = false := by decide
example : existsPairB [2, 7, 11, 15] 9 = true := by decide

/-! ### Claim theorems -/

/-- C1: for every sequence and target such that some valid pair exists (two
distinct positions whose values sum to the target), `twoSum` returns a pair
of indices `(i, j)` with `i < j` and `sequence[i] + sequence[j] = target`. -/
theorem twoSum_returns_valid_pair (nums : List Int) (target : Int)
    (h : ∃ a b, ValidPair nums target a b) :
    ∃ i j, twoSum nums target = [i, j] ∧ i < j ∧ j < nums.length
      ∧ nth nums i + nth nums j = target := by
  rcases twoSum_spec nums target with ⟨_, hno⟩ | ⟨i, j, heq, hvp, _, _⟩
  · obtain ⟨a, b, hv⟩ := h
    exact absurd hv (hno a b)
  · exact ⟨i, j, heq, hvp.1, hvp.2.1, hvp.2.2⟩

/-- Witness for C1: on `[2, 7, 11, 15]` with target `9` a valid pair exists
(positions 0 and 1) and the theorem applies. -/
theorem twoSum_returns_valid_pair_witness :
    ∃ i j, twoSum [2, 7, 11, 15] 9 = [i, j] ∧ i < j
      ∧ j < ([2, 7, 11, 15] : List Int).length
      ∧ nth [2, 7, 11, 15] i + nth [2, 7, 11, 15] j = 9 :=
  twoSum_returns_valid_pair [2, 7, 11, 15] 9 ⟨0, 1, by decide⟩

/-- C2: for every sequence and target such that some valid pair exists, the
second index `j` of the pair returned by `twoSum` is the smallest second
index among all valid pairs. -/
theorem twoSum_min_second_index (nums : List Int) (target : Int)
    (h : ∃ a b, ValidPair nums target a b) :
    ∃ i j, twoSum nums target = [i, j] ∧ ValidPair nums target i j
      ∧ ∀ b2 a2, ValidPair nums target a2 b2 → j ≤ b2 := by
  rcases twoSum_spec nums target with ⟨_, hno⟩ | ⟨i, j, heq, hvp, _, hmin⟩
  · obtain ⟨a, b, hv⟩ := h
    exact absurd hv (hno a b)
  · exact ⟨i, j, heq, hvp, hmin⟩

/-- Witness for C2: on `[3, 2, 4]` with target `6` the valid pair `(1, 2)`
exists and the theorem applies. -/
theorem twoSum_min_second_index_witness :
    ∃ i j, twoSum [3, 2, 4] 6 = [i, j] ∧ ValidPair [3, 2, 4] 6 i j
      ∧ ∀ b2 a2, ValidPair [3, 2, 4] 6 a2 b2 → j ≤ b2 :=
  twoSum_min_second_index [3, 2, 4] 6 ⟨1, 2, by decide⟩

/-- C3, counterexample to the claim as stated: on `[3, 3, 6]` with target
`9` the complement of `nums[2] = 6` is `3`, which first occurs at index `0`,
yet `twoSum` returns `[1, 2]` — the first index is not the earliest
occurrence of the complement. The reason is visible in the map itself:
after inserting value `3` at index `0` and then at index `1`, the
`operator[]` assignment has overwritten the entry, and the map sends `3` to
`1`, not to the earliest index `0`. -/
theorem twoSum_not_earliest_complement :
    twoSum [3, 3, 6] 9 = [1, 2]
    ∧ nth [3, 3, 6] 0 = 9 - nth [3, 3, 6] 2
    ∧ (0 : Nat) < 1
    ∧ mapLookup (mapInsert (mapInsert [] 3 0) 3 1) 3 = some 1 := by decide

/-- C3 as amended: the lookup mapping maps each previously seen value to
the latest index at which it has occurred so far; consequently, when
`twoSum` returns `(i, j)`, `i` is the latest index before `j` at which the
complement `target - sequence[j]` occurs. -/
theorem twoSum_latest_complement (nums : List Int) (target : Int)
    (h : ∃ a b, ValidPair nums target a b) :
    ∃ i j, twoSum nums target = [i, j] ∧ i < j
      ∧ nth nums i = target - nth nums j
      ∧ ∀ w, i < w → w < j → nth nums w ≠ target - nth nums j := by
  rcases twoSum_spec nums target with ⟨_, hno⟩ | ⟨i, j, heq, hvp, hlate, _⟩
  · obtain ⟨a, b, hv⟩ := h
    exact absurd hv (hno a b)
  · refine ⟨i, j, heq, hvp.1, ?_, hlate⟩
    have hsum := hvp.2.2
    omega

/-- Witness for C3 as amended: on `[3, 3, 6]` with target `9` a valid pair
exists and the theorem applies; the returned first index is the latest
occurrence of the complement before the second index. -/
theorem twoSum_latest_complement_witness :
    ∃ i j, twoSum [3, 3, 6] 9 = [i, j] ∧ i < j
      ∧ nth [3, 3, 6] i = 9 - nth [3, 3, 6] j
      ∧ ∀ w, i < w → w < j → nth [3, 3, 6] w ≠ 9 - nth [3, 3, 6] j :=
  twoSum_latest_complement [3, 3, 6] 9 ⟨1, 2, by decide⟩

/-- C4: for every sequence and target such that no valid pair exists —
in particular for every empty sequence — `twoSum` returns the empty
result. -/
theorem twoSum_empty_when_no_pair (nums : List Int) (target : Int)
    (h : ∀ a b, ¬ ValidPair nums target a b) :
    twoSum nums target = [] := by
  rcases twoSum_spec nums target with ⟨he, _⟩ | ⟨i, j, _, hvp, _, _⟩
  · exact he
  · exact absurd hvp (h i j)

/-- Witness for C4: applied both to `[1, 2, 3]` with target `100` (no pair
sums to the target) and to the empty sequence. -/
theorem twoSum_empty_when_no_pair_witness :
    twoSum [1, 2, 3] 100 = [] ∧ twoSum [] 5 = [] :=
  ⟨twoSum_empty_when_no_pair [1, 2, 3] 100
      (no_pair_of_existsPairB_false [1, 2, 3] 100 (by decide)),
    twoSum_empty_when_no_pair [] 5
      (no_pair_of_existsPairB_false [] 5 (by decide))⟩

/-- C5: the program reads one integer `n`, then `n` integers forming the
sequence in order, then one integer target; when a valid pair exists it
prints exactly the string `[i,j]` — where `(i, j)` is the pair computed by
`twoSum` — with no surrounding whitespace or trailing newline. -/
theorem main_prints_pair (tokens nums : List Int) (target : Int)
    (hp : parseInput tokens = some (nums, target))
    (hex : ∃ a b, ValidPair nums target a b) :
    ∃ i j, twoSum nums target = [i, j]
      ∧ runMain tokens = some ("[" ++ toString i ++ "," ++ toString j ++ "]") := by
  rcases twoSum_spec nums target with ⟨_, hno⟩ | ⟨i, j, heq, _, _, _⟩
  · obtain ⟨a, b, hv⟩ := hex
    exact absurd hv (hno a b)
  · refine ⟨i, j, heq, ?_⟩
    simp [runMain, hp, heq, formatResult]

/-- Witness for C5: the token stream `4 2 7 11 15 9` parses to the sequence
`[2, 7, 11, 15]` with target `9`, which has a valid pair, and the theorem
applies. -/
theorem main_prints_pair_witness :
    ∃ i j, twoSum [2, 7, 11, 15] 9 = [i, j]
      ∧ runMain [4, 2, 7, 11, 15, 9]
          = some ("[" ++ toString i ++ "," ++ toString j ++ "]") :=
  main_prints_pair [4, 2, 7, 11, 15, 9] [2, 7, 11, 15] 9 (by decide) ⟨0, 1, by decide⟩

/-- C6: when some valid pair exists for the parsed sequence and target, the
accesses `result[0]` and `result[1]` in `main` are within bounds (the
result has positions 0 and 1); when no valid pair exists, the result is
absent and the accesses are undefined (modelled: formatting the result is
`none`). -/
theorem result_index_bounds (nums : List Int) (target : Int) :
    ((∃ a b, ValidPair nums target a b) →
      0 < (twoSum nums target).length ∧ 1 < (twoSum nums target).length)
    ∧ ((¬ ∃ a b, ValidPair nums target a b) →
      twoSum nums target = [] ∧ formatResult (twoSum nums target) = none) := by
  constructor
  · intro hex
    rcases twoSum_spec nums target with ⟨_, hno⟩ | ⟨i, j, heq, _, _, _⟩
    · obtain ⟨a, b, hv⟩ := hex
      exact absurd hv (hno a b)
    · rw [heq]
      exact ⟨Nat.succ_pos 1, Nat.lt_succ_self 1⟩
  · intro hnex
    rcases twoSum_spec nums target with ⟨he, _⟩ | ⟨i, j, _, hvp, _, _⟩
    · rw [he]
      exact ⟨rfl, rfl⟩
    · exact absurd ⟨i, j, hvp⟩ hnex

/-- Witness for C6: the pair-exists side at `[2, 7, 11, 15]`, target `9`,
and the no-pair side at `[1, 2, 3]`, target `100`. -/
theorem result_index_bounds_witness :
    (0 < (twoSum [2, 7, 11, 15] 9).length ∧ 1 < (twoSum [2, 7, 11, 15] 9).length)
    ∧ (twoSum [1, 2, 3] 100 = [] ∧ formatResult (twoSum [1, 2, 3] 100) = none) :=
  ⟨(result_index_bounds [2, 7, 11, 15] 9).1 ⟨0, 1, by decide⟩,
    (result_index_bounds [1, 2, 3] 100).2 (by
      intro hex
      obtain ⟨a, b, hv⟩ := hex
      exact no_pair_of_existsPairB_false [1, 2, 3] 100 (by decide) a b hv)⟩

/-- C7: for every sequence and target, `twoSum` leaves the input sequence
unchanged — threading the by-reference vector through every loop step
returns it equal to its initial value — and the result computed by the
vector-threading rendering is the same as `twoSum`; the only state the loop
touches is the transient local map. -/
theorem twoSum_preserves_input (nums : List Int) (target : Int) :
    (twoSumRef nums target).2 = nums ∧ (twoSumRef nums target).1 = twoSum nums target := by
  have h := twoSumRefGo_eq target nums nums.length 0 [] (by omega)
  rw [twoSumRef, h]
  exact ⟨rfl, by simp [twoSum]⟩

/-- C8: on the concrete input sequence `[3, 3]` with target `6`, `twoSum`
returns the pair `(0, 1)`; the two indices are distinct, so an element is
not paired with itself at a single index. -/
theorem twoSum_three_three :
    twoSum [3, 3] 6 = [0, 1] ∧ (0 : Nat) ≠ 1 := by decide

/-- C9: for every sequence and target, the vector returned by `twoSum` has
length 0 or exactly 2, and when it is a pair `[i, j]` both entries are
valid indices into the sequence. -/
theorem twoSum_result_shape (nums : List Int) (target : Int) :
    ((twoSum nums target).length = 0 ∨ (twoSum nums target).length = 2)
    ∧ (twoSum nums target = []
      ∨ ∃ i j, twoSum nums target = [i, j] ∧ i < nums.length ∧ j < nums.length) := by
  rcases twoSum_spec nums target with ⟨he, _⟩ | ⟨i, j, heq, hvp, _, _⟩
  · rw [he]
    exact ⟨Or.inl rfl, Or.inl rfl⟩
  · rw [heq]
    exact ⟨Or.inr rfl,
      Or.inr ⟨i, j, rfl, Nat.lt_trans hvp.1 hvp.2.1, hvp.2.1⟩⟩

/-- C10: `twoSum` performs a single left-to-right pass — the instrumented
loop examines each element at most once, executes at most `n` iterations on
a sequence of length `n`, computes the same result as `twoSum`, and its
auxiliary map never holds more than `n` entries (linear time and linear
auxiliary space in the iteration-count and map-size cost model). -/
theorem twoSum_single_pass (nums : List Int) (target : Int) :
    (twoSumInstr target nums 0 []).1 = twoSum nums target
    ∧ (twoSumInstr target nums 0 []).2.1 ≤ nums.length
    ∧ (twoSumInstr target nums 0 []).2.2 ≤ nums.length := by
  refine ⟨twoSumInstr_fst target nums 0 [], twoSumInstr_iters_le target nums 0 [], ?_⟩
  have h1 := twoSumInstr_space_le target nums 0 []
  have h2 := twoSumInstr_iters_le target nums 0 []
  simp only [List.length_nil, Nat.zero_add] at h1
  omega

end TwoSumProg
